import Mathlib

/-!
Verification of `admin_util.py` (ak-energy-admin).

The module is embedded shallowly:

* A bucket is the list of keys of its objects (payloads and metadata are
  irrelevant to the properties below); `putKey` overwrites, `delKey` deletes.
* The local filesystem is the listing of the one source directory together
  with a stat function (`FS`).
* The fallible SDK and OS calls (`put_object`, `obj.delete`, `copy_from`,
  `open`) are parametrised by a `RemoteCfg` that says which calls the backend
  rejects; `okCfg` is a run in which every remote call succeeds.
* A raised Python exception is an `Option UErr` result; a loop whose body can
  raise is `runBatch`, which stops at the first error exactly as the
  interpreter abandons the remaining iterations.
-/

namespace AkAdmin

/-- Python `s.strip(c)`: remove every leading and trailing occurrence of the
character `c`. -/
def pyStrip (c : Char) (s : String) : String :=
  String.mk (((s.data.dropWhile (· == c)).reverse.dropWhile (· == c)).reverse)

/-- Python strip of slashes, the normalization applied to bucket prefixes. -/
def stripSlashes (s : String) : String := pyStrip '/' s

/-- Plain string-ordering test: does `k` start with the characters of `p`?
This is exactly the selection the S3 `Prefix=` filter performs. -/
def isPre (p k : String) : Bool := p.data.isPrefixOf k.data

/-- The characters of the final path segment of `s` (after the last slash). -/
def lastSeg (s : String) : List Char :=
  (s.data.reverse.takeWhile (fun c => c != '/')).reverse

/-- Python `os.path.basename`: the part of the path after the last slash. -/
def basename (s : String) : String :=
  String.mk (lastSeg s)

/-- The tail of a segment after its last dot (all of it when it has no dot). -/
def extAfter (base : List Char) : List Char :=
  (base.reverse.takeWhile (fun c => c != '.')).reverse

/-- Does the last dot of the segment start an extension for `splitext`?  True
when the segment has no dot at all (the first branch of `splitext` then
returns an empty extension anyway) or when some character strictly before the
last dot is not itself a dot. -/
def extUsable (base : List Char) : Bool :=
  if (extAfter base).length = base.length then true
  else (base.take (base.length - (extAfter base).length - 1)).any (fun c => c != '.')

/-- Python `os.path.join` for two components (posix rules), as used through
`glob(os.path.join(dir_path, pattern))`. -/
def joinPath (a b : String) : String :=
  if isPre "/" b then b
  else if a.data = [] then b
  else if a.data.getLast? = some '/' then a ++ b
  else a ++ "/" ++ b

/-- Python `os.path.splitext` (posix): split off the extension at the last dot of the
final path segment, provided some character of the segment before that dot is
not itself a dot (so leading dots of a basename never start an extension). -/
def splitext (p : String) : String × String :=
  let base := lastSeg p
  if (extAfter base).length = base.length then (p, "")
  else if (base.take (base.length - (extAfter base).length - 1)).any (fun c => c != '.') then
    (String.mk (p.data.take (p.data.length - base.length) ++
        base.take (base.length - (extAfter base).length - 1)),
     String.mk ('.' :: extAfter base))
  else (p, "")

/-- The fixed extension-to-MIME table `content_type_map` of the module. -/
def content_type_map : List (String × String) :=
  [("html", "text/html"),
   ("csv", "text/csv"),
   ("txt", "text/plain"),
   ("xlsx", "application/vnd.openxmlformats-officedocument.spreadsheetml.sheet"),
   ("pkl", "application/octet-stream")]

/-- The function `content_type`: `os.path.splitext(file_name)[-1]` dot-stripped,
looked up in `content_type_map` with the octet-stream default. -/
def content_type (fileName : String) : String :=
  let ext := pyStrip '.' (splitext fileName).2
  match content_type_map.find? (fun kv => kv.1 == ext) with
  | some kv => kv.2
  | none => "application/octet-stream"

/-- Modelled from the spec (for comparison with `content_type`): "extracts the
extension (substring after the last `.` in the final path segment; empty string
if none), looks it up case-sensitively in the fixed mapping, returns the mapped
MIME type or the fallback". -/
def specExt (f : String) : String :=
  if (lastSeg f).any (fun c => c == '.') then String.mk (extAfter (lastSeg f))
  else ""

/-- Modelled from the spec: the resolver the spec describes, built on `specExt`. -/
def resolveSpec (f : String) : String :=
  match content_type_map.find? (fun kv => kv.1 == specExt f) with
  | some kv => kv.2
  | none => "application/octet-stream"

/-- The final path segment of `f` has a character that is not a dot strictly
before its last dot (or has no dot at all): exactly the file names on which
`splitext` implements the plain last-dot rule. -/
def lastDotUsable (f : String) : Bool :=
  extUsable (lastSeg f)

/-- Python values, as far as `chg_nonnum` can observe them: the numeric tower
(`int`, `bool`, `float`, `complex` are `numbers.Number`) and some non-numeric
values.  A float is NaN or an ordinary value. -/
inductive PyFloat where
  | nan
  | fin (q : ℚ)
  deriving DecidableEq

inductive PyVal where
  | intV (n : ℤ)
  | boolV (b : Bool)
  | floatV (x : PyFloat)
  | complexV (re im : ℚ)
  | strV (s : String)
  | noneV
  deriving DecidableEq

inductive PyErr where
  | typeError
  | overflowError
  deriving DecidableEq

/-- Python `isinstance(val, numbers.Number)`. -/
def isNumber : PyVal → Bool
  | .intV _ => true
  | .boolV _ => true
  | .floatV _ => true
  | .complexV _ _ => true
  | _ => false

/-- Is the value a Python `complex`? -/
def isComplex : PyVal → Bool
  | .complexV _ _ => true
  | _ => false

/-- Conversion of the integer `n` to an IEEE double overflows: under round to
nearest, ties to even, every integer of magnitude at least
`2 ^ 1024 - 2 ^ 970` (the midpoint above the largest finite double
`2 ^ 1024 - 2 ^ 971`) rounds out of range, and CPython raises
`OverflowError`. -/
def intFloatOverflow (n : ℤ) : Bool :=
  decide (2 ^ 1024 - 2 ^ 970 ≤ n.natAbs)

/-- The value converts to float without error (integers within double range;
bools convert to 0.0 or 1.0; floats are already floats). -/
def floatConvOk : PyVal → Bool
  | .intV n => !(intFloatOverflow n)
  | _ => true

/-- Python `math.isnan`: converts its argument to float first, so it raises
`TypeError` on a complex value (and on non-numeric values) and
`OverflowError` on an integer too large for a double. -/
def mathIsnan : PyVal → Except PyErr Bool
  | .intV n => if intFloatOverflow n then .error .overflowError else .ok false
  | .boolV _ => .ok false
  | .floatV .nan => .ok true
  | .floatV (.fin _) => .ok false
  | _ => .error .typeError

/-- The function `chg_nonnum(val, sub_val)` from the module. -/
def chg_nonnum (val subVal : PyVal) : Except PyErr PyVal :=
  if isNumber val then
    match mathIsnan val with
    | .error e => .error e
    | .ok true => .ok subVal
    | .ok false => .ok val
  else .ok subVal

/-- Failure outcomes of the underlying OS and object-store calls. -/
inductive UErr where
  | osError (path : String)
  | putRejected (key : String)
  | delFailed (key : String)
  | copyFailed (src dst : String)
  deriving DecidableEq

/-- Which remote calls the backend rejects during a run.  `okCfg` below is the
run in which every call succeeds. -/
structure RemoteCfg where
  putFails : String → Bool
  delFails : String → Bool
  copyFails : String → String → Bool

def okCfg : RemoteCfg := ⟨fun _ => false, fun _ => false, fun _ _ => false⟩

inductive FKind where
  | file
  | dir
  deriving DecidableEq

/-- The local filesystem as the code observes it: the listing (entry names, in
directory order) of the one source directory an operation touches, a stat
function by full path, and readability by full path. -/
structure FS where
  listing : List String
  kind : String → Option FKind
  readable : String → Bool

/-- Opening `p` for binary reading succeeds: `p` stats as a regular file and
is readable. -/
def openOk (fs : FS) (p : String) : Bool :=
  (fs.kind p == some FKind.file) && fs.readable p

/-- Python `glob(os.path.join(dirPath, pattern))` with pattern a bare star: the full
paths of the entries whose names do not begin with a dot, in listing order
(glob hides dot entries from a star). -/
def glob (fs : FS) (dirPath : String) : List String :=
  (fs.listing.filter (fun n => !(isPre "." n))).map (fun n => joinPath dirPath n)

/-- Overwriting object write: a bucket holds one object per key. -/
def putKey (s : List String) (k : String) : List String :=
  if s.contains k then s else s ++ [k]

/-- Object delete. -/
def delKey (s : List String) (k : String) : List String :=
  s.filter (fun x => x != k)

def delAll (s : List String) (l : List String) : List String := l.foldl delKey s

/-- Sequential execution of a Python for-loop whose body can raise: the first
error abandons the remaining iterations and surfaces. -/
def runBatch (step : List String → α → List String × Option UErr) :
    List String → List α → List String × Option UErr
  | s, [] => (s, none)
  | s, x :: rest =>
    match step s x with
    | (s1, some e) => (s1, some e)
    | (s1, none) => runBatch step s1 rest

/-- The module-level `clear_dir(dir_path)`: delete every regular file among the
non-dot entries of the directory; the result is the listing afterwards. -/
def clear_dir (fs : FS) (dirPath : String) : List String :=
  (glob fs dirPath).foldl
    (fun names fn =>
      if fs.kind fn == some FKind.file then
        names.filter (fun n => joinPath dirPath n != fn)
      else names)
    fs.listing

namespace Bucket

/-- Body of the loop of `Bucket.clear_dir`: delete one listed object. -/
def clearStep (cfg : RemoteCfg) (s : List String) (k : String) :
    List String × Option UErr :=
  if cfg.delFails k then (s, some (UErr.delFailed k)) else (delKey s k, none)

/-- The method `Bucket.clear_dir`: strip slashes from the prefix argument and delete every
object whose key starts with the result. -/
def clear_dir (cfg : RemoteCfg) (keys : List String) (dirToClear : String) :
    List String × Option UErr :=
  let d := stripSlashes dirToClear
  runBatch (clearStep cfg) keys (keys.filter (fun k => isPre d k))

/-- The method `Bucket.upload_file`: open the local file (its content type is computed
from the name and attached as metadata, which the key-set model does not
record), then `put_object` under `destKey`. -/
def upload_file (fs : FS) (cfg : RemoteCfg) (keys : List String)
    (filePath destKey : String) : List String × Option UErr :=
  if !(openOk fs filePath) then (keys, some (UErr.osError filePath))
  else if cfg.putFails destKey then (keys, some (UErr.putRejected destKey))
  else (putKey keys destKey, none)

/-- Body of the loop of `Bucket.upload_dir`: upload one globbed path to
`destDir ++ "/" ++ basename`. -/
def uploadStep (fs : FS) (cfg : RemoteCfg) (destDir : String)
    (s : List String) (fn : String) : List String × Option UErr :=
  upload_file fs cfg s fn (destDir ++ "/" ++ basename fn)

/-- The method `Bucket.upload_dir`. -/
def upload_dir (fs : FS) (cfg : RemoteCfg) (keys : List String)
    (srcDirLocal destDir : String) (clearDestDir : Bool) :
    List String × Option UErr :=
  let d := stripSlashes destDir
  match (if clearDestDir then clear_dir cfg keys destDir else (keys, none)) with
  | (s, some e) => (s, some e)
  | (s, none) => runBatch (uploadStep fs cfg d) s (glob fs srcDirLocal)

/-- Body of the loop of `Bucket.move_files`: skip an object whose slash-stripped
key is the source prefix, else copy to `destDir ++ "/" ++ basename` and delete
the original. -/
def moveStep (cfg : RemoteCfg) (srcDir destDir : String)
    (s : List String) (k : String) : List String × Option UErr :=
  if stripSlashes k == srcDir then (s, none)
  else
    let dk := destDir ++ "/" ++ basename k
    if cfg.copyFails k dk then (s, some (UErr.copyFailed k dk))
    else if cfg.delFails k then (putKey s dk, some (UErr.delFailed k))
    else (delKey (putKey s dk) k, none)

/-- Does the body of the `Bucket.move_files` loop finish the object `k` without
raising?  (The answer does not depend on the bucket state.) -/
def moveOk (cfg : RemoteCfg) (srcDir destDir : String) (k : String) : Bool :=
  (stripSlashes k == srcDir) ||
    (!(cfg.copyFails k (destDir ++ "/" ++ basename k)) && !(cfg.delFails k))

/-- The method `Bucket.move_files`. -/
def move_files (cfg : RemoteCfg) (keys : List String)
    (srcDir destDir : String) (clearDest : Bool) : List String × Option UErr :=
  let s' := stripSlashes srcDir
  let d' := stripSlashes destDir
  match (if clearDest then clear_dir cfg keys destDir else (keys, none)) with
  | (s, some e) => (s, some e)
  | (s, none) => runBatch (moveStep cfg s' d') s (s.filter (fun k => isPre s' k))

end Bucket

/-! ### Concrete fixtures used by witnesses and counterexamples -/

/-- A local directory `d` holding one ordinary readable file `f.csv`. -/
def fsGood : FS :=
  ⟨["f.csv"], fun p => if p == "d/f.csv" then some FKind.file else none,
   fun _ => true⟩

/-- A local directory `d` holding one subdirectory entry `sub`. -/
def fsSub : FS :=
  ⟨["sub"], fun p => if p == "d/sub" then some FKind.dir else none,
   fun _ => true⟩

/-- A local directory `d` holding one dot-file `.env` (a regular file). -/
def fsDot : FS :=
  ⟨[".env"], fun p => if p == "d/.env" then some FKind.file else none,
   fun _ => true⟩

/-- A local directory `d` with a file, a subdirectory and a dot-file. -/
def fsMix : FS :=
  ⟨["a.txt", "b", ".gitignore"],
   fun p =>
     if p == "d/a.txt" then some FKind.file
     else if p == "d/b" then some FKind.dir
     else if p == "d/.gitignore" then some FKind.file else none,
   fun _ => true⟩

/-- A local directory `d` with a regular file followed by a subdirectory. -/
def fsHalf : FS :=
  ⟨["a.txt", "sub"],
   fun p =>
     if p == "d/a.txt" then some FKind.file
     else if p == "d/sub" then some FKind.dir else none,
   fun _ => true⟩

/-- A backend that rejects `put_object` on the key `k`. -/
def cfgPutK : RemoteCfg := ⟨fun k => k == "k", fun _ => false, fun _ _ => false⟩

/-- A backend whose object delete fails on the key `p/b`. -/
def cfgDelPB : RemoteCfg := ⟨fun _ => false, fun k => k == "p/b", fun _ _ => false⟩

/-- A backend that rejects the copy whose source is `a/y`. -/
def cfgCopyAY : RemoteCfg :=
  ⟨fun _ => false, fun _ => false, fun src _ => src == "a/y"⟩

/-! ### Helper lemmas: strings, keys and membership -/

theorem strData_append (a b : String) : (a ++ b).data = a.data ++ b.data :=
  String.data_append a b

theorem strAssoc (a b c : String) : a ++ b ++ c = a ++ (b ++ c) := by
  apply String.ext
  simp [strData_append]

theorem isPre_iff {p k : String} : isPre p k = true ↔ p.data <+: k.data := by
  simp [isPre, List.isPrefixOf_iff_prefix]

theorem isPre_append_right (p t : String) : isPre p (p ++ t) = true := by
  rw [isPre_iff, strData_append]
  exact List.prefix_append _ _

theorem isPre_trans {p q r : String} (h1 : isPre p q = true) (h2 : isPre q r = true) :
    isPre p r = true := by
  rw [isPre_iff] at *
  exact h1.trans h2

theorem isPre_nil (k : String) : isPre "" k = true := by
  rw [isPre_iff]
  exact List.nil_prefix

/-- If neither of two strings starts with the other, the first starts no
extension of the second either. -/
theorem no_cross {s d : String} (h1 : isPre s d = false) (h2 : isPre d s = false)
    (t : String) : isPre s (d ++ t) = false := by
  by_contra hc
  rw [Bool.not_eq_false, isPre_iff, strData_append] at hc
  rcases le_or_lt s.data.length d.data.length with hle | hlt
  · have hp : s.data <+: d.data := by
      have htake := List.prefix_iff_eq_take.mp hc
      rw [List.take_append_of_le_length hle] at htake
      rw [htake]
      exact List.take_prefix _ _
    rw [isPre_iff.mpr hp] at h1
    simp at h1
  · have hp : d.data <+: s.data := by
      have htake := List.prefix_iff_eq_take.mp hc
      rw [List.take_append_eq_append_take,
        List.take_of_length_le (le_of_lt hlt)] at htake
      exact ⟨_, htake.symm⟩
    rw [isPre_iff.mpr hp] at h2
    simp at h2

theorem mem_putKey {s : List String} {k x : String} :
    x ∈ putKey s k ↔ x ∈ s ∨ x = k := by
  unfold putKey
  by_cases h : s.contains k
  · rw [if_pos h]
    have hk : k ∈ s := List.elem_iff.mp h
    constructor
    · exact Or.inl
    · rintro (hx | rfl)
      · exact hx
      · exact hk
  · rw [if_neg h]
    simp

theorem mem_delKey {s : List String} {k x : String} :
    x ∈ delKey s k ↔ x ∈ s ∧ x ≠ k := by
  simp [delKey, List.mem_filter]

theorem mem_delAll {l s : List String} {x : String} :
    x ∈ delAll s l ↔ x ∈ s ∧ x ∉ l := by
  induction l generalizing s with
  | nil => simp [delAll]
  | cons a l ih =>
    show x ∈ delAll (delKey s a) l ↔ _
    rw [ih, mem_delKey]
    constructor
    · rintro ⟨⟨hs, hne⟩, hnl⟩
      exact ⟨hs, by simp [hne, hnl]⟩
    · rintro ⟨hs, hn⟩
      simp only [List.mem_cons, not_or] at hn
      exact ⟨⟨hs, hn.1⟩, hn.2⟩

theorem takeWhile_middle (p : Char → Bool) (l1 l2 : List Char) (c : Char)
    (h1 : ∀ x ∈ l1, p x = true) (h2 : p c = false) :
    (l1 ++ c :: l2).takeWhile p = l1 := by
  induction l1 with
  | nil => simp [List.takeWhile_cons, h2]
  | cons a l1 ih =>
    have ha : p a = true := h1 a (by simp)
    simp [List.cons_append, List.takeWhile_cons, ha,
      ih (fun x hx => h1 x (by simp [hx]))]

theorem basename_noSlash {b : String} (h : '/' ∉ b.data) : basename b = b := by
  apply String.ext
  show ((b.data.reverse.takeWhile (fun c => c != '/')).reverse) = b.data
  have : b.data.reverse.takeWhile (fun c => c != '/') = b.data.reverse := by
    apply List.takeWhile_eq_self_iff.mpr
    intro c hc
    have : c ∈ b.data := List.mem_reverse.mp hc
    simp only [bne_iff_ne, ne_eq]
    rintro rfl
    exact h this
  rw [this, List.reverse_reverse]

theorem basename_append {a b : String} (hb : '/' ∉ b.data)
    (ha : a.data.getLast? = some '/') : basename (a ++ b) = b := by
  apply String.ext
  show (((a ++ b).data.reverse.takeWhile (fun c => c != '/')).reverse) = b.data
  rcases hrev : a.data.reverse with _ | ⟨c, r⟩
  · exfalso
    have : a.data = [] := by simpa using congrArg List.reverse hrev
    rw [this] at ha
    simp at ha
  · have hc : c = '/' := by
      have h1 : a.data.reverse.head? = some c := by rw [hrev]; rfl
      have h2 : a.data.reverse.head? = a.data.getLast? := List.head?_reverse _
      rw [h2, ha] at h1
      exact (Option.some_inj.mp h1).symm
    subst hc
    rw [strData_append, List.reverse_append, hrev]
    rw [takeWhile_middle _ _ _ _ (fun x hx => ?_) (by decide)]
    · rw [List.reverse_reverse]
    · have : x ∈ b.data := List.mem_reverse.mp hx
      simp only [bne_iff_ne, ne_eq]
      rintro rfl
      exact hb this

theorem basename_joinPath {a b : String} (hb : '/' ∉ b.data) :
    basename (joinPath a b) = b := by
  unfold joinPath
  by_cases h1 : isPre "/" b = true
  · exfalso
    rw [isPre_iff] at h1
    rcases h1 with ⟨t, ht⟩
    apply hb
    rw [← ht]
    simp
  · rw [if_neg (by simp [h1])]
    by_cases h2 : a.data = []
    · rw [if_pos h2]
      exact basename_noSlash hb
    · rw [if_neg h2]
      by_cases h3 : a.data.getLast? = some '/'
      · rw [if_pos h3]
        exact basename_append hb h3
      · rw [if_neg h3]
        exact basename_append hb (by rw [strData_append]; simp)

theorem joinPath_inj {a m n : String} (hm : isPre "/" m = false)
    (hn : isPre "/" n = false) (h : joinPath a m = joinPath a n) : m = n := by
  have h' : (if a.data = [] then m
      else if a.data.getLast? = some '/' then a ++ m else a ++ "/" ++ m)
      = (if a.data = [] then n
      else if a.data.getLast? = some '/' then a ++ n else a ++ "/" ++ n) := by
    unfold joinPath at h
    simpa [hm, hn] using h
  by_cases h2 : a.data = []
  · simpa [h2] using h'
  · simp only [if_neg h2] at h'
    by_cases h3 : a.data.getLast? = some '/'
    · simp only [if_pos h3] at h'
      have hd := congrArg String.data h'
      rw [strData_append, strData_append] at hd
      exact String.ext (List.append_cancel_left hd)
    · simp only [if_neg h3] at h'
      rw [strAssoc, strAssoc] at h'
      have hd := congrArg String.data h'
      simp only [strData_append] at hd
      have hd2 := List.append_cancel_left hd
      apply String.ext
      simpa using hd2

theorem stripSlashes_all {p : String} (h : ∀ c ∈ p.data, c = '/') :
    stripSlashes p = "" := by
  apply String.ext
  show (((p.data.dropWhile (· == '/')).reverse.dropWhile (· == '/')).reverse) = []
  have h1 : p.data.dropWhile (· == '/') = [] :=
    List.dropWhile_eq_nil_iff.mpr (fun c hc => by simp [h c hc])
  rw [h1]
  rfl

/-! ### Helper lemmas: the loop runner and the three bucket batch loops -/

theorem runBatch_nil (step : List String → α → List String × Option UErr)
    (s : List String) : runBatch step s [] = (s, none) := rfl

theorem runBatch_cons (step : List String → α → List String × Option UErr)
    (s : List String) (x : α) (l : List α) :
    runBatch step s (x :: l) =
      match step s x with
      | (s1, some e) => (s1, some e)
      | (s1, none) => runBatch step s1 l := rfl

theorem runBatch_cons_ok {step : List String → α → List String × Option UErr}
    {s s1 : List String} {x : α} (hx : step s x = (s1, none)) (l : List α) :
    runBatch step s (x :: l) = runBatch step s1 l := by
  rw [runBatch_cons, hx]

theorem runBatch_abort (step : List String → α → List String × Option UErr)
    (l1 : List α) (k : α) (l2 : List α) (s : List String)
    (h1 : ∀ x ∈ l1, ∀ t, (step t x).snd = none)
    (h2 : ∀ t, (step t k).snd ≠ none) :
    runBatch step s (l1 ++ k :: l2) =
      step (l1.foldl (fun t x => (step t x).fst) s) k := by
  induction l1 generalizing s with
  | nil =>
    rcases hk : step s k with ⟨s1, e⟩
    rcases e with _ | e
    · exact absurd (by rw [hk]) (h2 s)
    · simp [runBatch_cons, hk]
  | cons x l1 ih =>
    rcases hx : step s x with ⟨s1, e⟩
    rcases e with _ | e
    · rw [List.cons_append, runBatch_cons_ok hx,
        ih _ (fun y hy t => h1 y (by simp [hy]) t)]
      simp [hx]
    · exfalso
      have hn := h1 x (by simp) s
      rw [hx] at hn
      simp at hn

theorem clearStep_ok {cfg : RemoteCfg} {k : String} (h : cfg.delFails k = false)
    (s : List String) : Bucket.clearStep cfg s k = (delKey s k, none) := by
  simp [Bucket.clearStep, h]

theorem runClear_all_ok (cfg : RemoteCfg) (l : List String)
    (hl : ∀ x ∈ l, cfg.delFails x = false) (s : List String) :
    runBatch (Bucket.clearStep cfg) s l = (delAll s l, none) := by
  induction l generalizing s with
  | nil => rfl
  | cons x l ih =>
    rw [runBatch_cons_ok (clearStep_ok (hl x (by simp)) s),
      ih (fun y hy => hl y (by simp [hy]))]
    rfl

theorem bucketClear_ok (keys : List String) (d : String) :
    Bucket.clear_dir okCfg keys d =
      (delAll keys (keys.filter (fun k => isPre (stripSlashes d) k)), none) :=
  runClear_all_ok okCfg _ (fun _ _ => rfl) keys

theorem mem_bucketClear_ok {keys : List String} {d : String} {x : String} :
    x ∈ (Bucket.clear_dir okCfg keys d).fst ↔
      x ∈ keys ∧ isPre (stripSlashes d) x = false := by
  rw [bucketClear_ok]
  show x ∈ delAll keys _ ↔ _
  rw [mem_delAll]
  constructor
  · rintro ⟨hk, hf⟩
    refine ⟨hk, ?_⟩
    by_contra hb
    rw [Bool.not_eq_false] at hb
    exact hf (List.mem_filter.mpr ⟨hk, hb⟩)
  · rintro ⟨hk, hf⟩
    exact ⟨hk, fun hmem => by simpa [hf] using (List.mem_filter.mp hmem).2⟩

theorem uploadStep_ok {fs : FS} {cfg : RemoteCfg} {d' fn : String}
    (ho : openOk fs fn = true)
    (hp : cfg.putFails (d' ++ "/" ++ basename fn) = false) (s : List String) :
    Bucket.uploadStep fs cfg d' s fn =
      (putKey s (d' ++ "/" ++ basename fn), none) := by
  simp [Bucket.uploadStep, Bucket.upload_file, ho, hp]

theorem runUpload_all_ok (fs : FS) (d' : String) (l : List String)
    (hl : ∀ fn ∈ l, openOk fs fn = true) (s : List String) :
    runBatch (Bucket.uploadStep fs okCfg d') s l =
      (l.foldl (fun t fn => putKey t (d' ++ "/" ++ basename fn)) s, none) := by
  induction l generalizing s with
  | nil => rfl
  | cons x l ih =>
    rw [runBatch_cons_ok (uploadStep_ok (hl x (by simp)) rfl s),
      ih (fun y hy => hl y (by simp [hy]))]
    rfl

theorem runUpload_none_iff (fs : FS) (d' : String) (l : List String)
    (s : List String) :
    (runBatch (Bucket.uploadStep fs okCfg d') s l).snd = none ↔
      ∀ fn ∈ l, openOk fs fn = true := by
  induction l generalizing s with
  | nil => simp [runBatch_nil]
  | cons x l ih =>
    by_cases ho : openOk fs x = true
    · rw [runBatch_cons_ok (uploadStep_ok ho rfl s)]
      rw [ih]
      constructor
      · intro h fn hfn
        rcases List.mem_cons.mp hfn with rfl | hfn
        · exact ho
        · exact h fn hfn
      · intro h fn hfn
        exact h fn (by simp [hfn])
    · have ho' : openOk fs x = false := by simpa using ho
      have hx : Bucket.uploadStep fs okCfg d' s x = (s, some (UErr.osError x)) := by
        simp [Bucket.uploadStep, Bucket.upload_file, ho']
      rw [runBatch_cons, hx]
      simp [ho]

theorem mem_foldPut (f : String → String) (l : List String) (s : List String)
    (x : String) :
    x ∈ l.foldl (fun t fn => putKey t (f fn)) s ↔
      x ∈ s ∨ ∃ fn ∈ l, x = f fn := by
  induction l generalizing s with
  | nil => simp
  | cons a l ih =>
    show x ∈ l.foldl _ (putKey s (f a)) ↔ _
    rw [ih, mem_putKey]
    constructor
    · rintro ((hs | rfl) | ⟨fn, hfn, rfl⟩)
      · exact Or.inl hs
      · exact Or.inr ⟨a, by simp⟩
      · exact Or.inr ⟨fn, by simp [hfn]⟩
    · rintro (hs | ⟨fn, hfn, rfl⟩)
      · exact Or.inl (Or.inl hs)
      · rcases List.mem_cons.mp hfn with rfl | hfn
        · exact Or.inl (Or.inr rfl)
        · exact Or.inr ⟨fn, hfn, rfl⟩

theorem moveStep_skip {s' : String} {k : String} (cfg : RemoteCfg) (d' : String)
    (h : stripSlashes k = s') (s : List String) :
    Bucket.moveStep cfg s' d' s k = (s, none) := by
  simp [Bucket.moveStep, h]

theorem moveStep_proc {s' : String} {k : String} (d' : String)
    (h : stripSlashes k ≠ s') (s : List String) :
    Bucket.moveStep okCfg s' d' s k =
      (delKey (putKey s (d' ++ "/" ++ basename k)) k, none) := by
  simp [Bucket.moveStep, h, okCfg]

theorem moveStep_none_iff (cfg : RemoteCfg) (s' d' : String) (s : List String)
    (k : String) :
    (Bucket.moveStep cfg s' d' s k).snd = none ↔
      Bucket.moveOk cfg s' d' k = true := by
  unfold Bucket.moveStep Bucket.moveOk
  by_cases h1 : stripSlashes k == s'
  · simp [h1]
  · simp only [h1, Bool.false_or, if_neg (by simp [h1] : ¬ (stripSlashes k == s') = true)]
    by_cases h2 : cfg.copyFails k (d' ++ "/" ++ basename k)
    · simp [h2]
    · by_cases h3 : cfg.delFails k
      · simp [h2, h3]
      · simp [h2, h3]

theorem runMove_none (s' d' : String) (l : List String) (s : List String) :
    (runBatch (Bucket.moveStep okCfg s' d') s l).snd = none := by
  induction l generalizing s with
  | nil => rfl
  | cons x l ih =>
    by_cases h : stripSlashes x = s'
    · rw [runBatch_cons_ok (moveStep_skip okCfg d' h s)]
      exact ih _
    · rw [runBatch_cons_ok (moveStep_proc d' h s)]
      exact ih _

theorem runMove_keep (s' d' : String) (l : List String)
    (hl : ∀ x ∈ l, isPre s' x = true) (s : List String) (y : String)
    (hy : y ∈ s) (hyp : isPre s' y = false) :
    y ∈ (runBatch (Bucket.moveStep okCfg s' d') s l).fst := by
  induction l generalizing s with
  | nil => exact hy
  | cons x l ih =>
    have hyx : y ≠ x := fun he => by
      rw [he, hl x (by simp)] at hyp
      exact absurd hyp (by decide)
    by_cases h : stripSlashes x = s'
    · rw [runBatch_cons_ok (moveStep_skip okCfg d' h s)]
      exact ih (fun z hz => hl z (by simp [hz])) s hy
    · rw [runBatch_cons_ok (moveStep_proc d' h s)]
      exact ih (fun z hz => hl z (by simp [hz])) _
        (mem_delKey.mpr ⟨mem_putKey.mpr (Or.inl hy), hyx⟩)

theorem runMove_adds (s' d' : String)
    (hnc : ∀ t, isPre s' (d' ++ t) = false)
    (l : List String) (hl : ∀ x ∈ l, isPre s' x = true) (s : List String)
    (k : String) (hk : k ∈ l) (hsk : stripSlashes k ≠ s') :
    (d' ++ "/" ++ basename k) ∈ (runBatch (Bucket.moveStep okCfg s' d') s l).fst := by
  have hdknp : isPre s' (d' ++ "/" ++ basename k) = false := by
    rw [strAssoc]
    exact hnc _
  induction l generalizing s with
  | nil => cases hk
  | cons x l ih =>
    rcases List.mem_cons.mp hk with rfl | hk
    · rw [runBatch_cons_ok (moveStep_proc d' hsk s)]
      exact runMove_keep s' d' l (fun z hz => hl z (by simp [hz])) _ _
        (mem_delKey.mpr ⟨mem_putKey.mpr (Or.inr rfl), fun he => by
          rw [he, hl k (by simp)] at hdknp
          exact absurd hdknp (by decide)⟩) hdknp
    · by_cases h : stripSlashes x = s'
      · rw [runBatch_cons_ok (moveStep_skip okCfg d' h s)]
        exact ih (fun z hz => hl z (by simp [hz])) _ hk
      · rw [runBatch_cons_ok (moveStep_proc d' h s)]
        exact ih (fun z hz => hl z (by simp [hz])) _ hk

theorem runMove_clears (s' d' : String)
    (hnc : ∀ t, isPre s' (d' ++ t) = false)
    (l : List String) (hl : ∀ x ∈ l, isPre s' x = true) (s : List String)
    (hinv : ∀ y ∈ s, isPre s' y = true → y ∈ l ∨ stripSlashes y = s') :
    ∀ y ∈ (runBatch (Bucket.moveStep okCfg s' d') s l).fst,
      isPre s' y = true → stripSlashes y = s' := by
  induction l generalizing s with
  | nil =>
    intro y hy hpre
    rcases hinv y hy hpre with h | h
    · cases h
    · exact h
  | cons x l ih =>
    by_cases h : stripSlashes x = s'
    · rw [runBatch_cons_ok (moveStep_skip okCfg d' h s)]
      refine ih (fun z hz => hl z (by simp [hz])) s (fun y hy hpre => ?_)
      rcases hinv y hy hpre with hin | hm
      · rcases List.mem_cons.mp hin with rfl | hin
        · exact Or.inr h
        · exact Or.inl hin
      · exact Or.inr hm
    · rw [runBatch_cons_ok (moveStep_proc d' h s)]
      refine ih (fun z hz => hl z (by simp [hz])) _ (fun y hy hpre => ?_)
      have hy' := mem_delKey.mp hy
      rcases mem_putKey.mp hy'.1 with hys | rfl
      · rcases hinv y hys hpre with hin | hm
        · rcases List.mem_cons.mp hin with rfl | hin
          · exact absurd rfl hy'.2
          · exact Or.inl hin
        · exact Or.inr hm
      · exfalso
        rw [strAssoc, hnc] at hpre
        exact absurd hpre (by decide)

theorem runMove_away (s' d' : String)
    (hnc : ∀ t, isPre s' (d' ++ t) = false)
    (l : List String) (s : List String) (y : String)
    (hy : y ∉ s) (hyp : isPre s' y = true) :
    y ∉ (runBatch (Bucket.moveStep okCfg s' d') s l).fst := by
  induction l generalizing s with
  | nil => exact hy
  | cons x l ih =>
    by_cases h : stripSlashes x = s'
    · rw [runBatch_cons_ok (moveStep_skip okCfg d' h s)]
      exact ih s hy
    · rw [runBatch_cons_ok (moveStep_proc d' h s)]
      apply ih
      intro hmem
      have h1 := mem_delKey.mp hmem
      rcases mem_putKey.mp h1.1 with hs | rfl
      · exact hy hs
      · rw [strAssoc, hnc] at hyp
        exact absurd hyp (by decide)

theorem runMove_deletes (s' d' : String)
    (hnc : ∀ t, isPre s' (d' ++ t) = false)
    (l : List String) (s : List String) (k : String)
    (hk : k ∈ l) (hkp : isPre s' k = true) (hks : stripSlashes k ≠ s') :
    k ∉ (runBatch (Bucket.moveStep okCfg s' d') s l).fst := by
  induction l generalizing s with
  | nil => cases hk
  | cons x l ih =>
    rcases List.mem_cons.mp hk with rfl | hk
    · rw [runBatch_cons_ok (moveStep_proc d' hks s)]
      exact runMove_away s' d' hnc l _ k
        (fun hmem => (mem_delKey.mp hmem).2 rfl) hkp
    · by_cases h : stripSlashes x = s'
      · rw [runBatch_cons_ok (moveStep_skip okCfg d' h s)]
        exact ih s hk
      · rw [runBatch_cons_ok (moveStep_proc d' h s)]
        exact ih _ hk

/-! ### Helper lemmas: `content_type` versus the last-dot rule -/

theorem dropWhile_of_none {p : Char → Bool} {l : List Char}
    (h : ∀ c ∈ l, p c = false) : l.dropWhile p = l := by
  cases l with
  | nil => rfl
  | cons a l =>
    rw [List.dropWhile_cons, h a (by simp)]
    simp

theorem takeWhile_all_of_length {p : Char → Bool} {l : List Char}
    (h : (l.takeWhile p).length = l.length) : ∀ c ∈ l, p c = true := by
  have hpre : l.takeWhile p <+: l := List.takeWhile_prefix p
  have heq : l.takeWhile p = l := hpre.sublist.eq_of_length h
  exact fun c hc => List.takeWhile_eq_self_iff.mp heq c hc

theorem extAfter_no_dot {base : List Char} : ∀ c ∈ extAfter base, (c == '.') = false := by
  intro c hc
  have hc' : c ∈ base.reverse.takeWhile (fun c => c != '.') := by
    unfold extAfter at hc
    exact List.mem_reverse.mp hc
  have := List.mem_takeWhile_imp hc'
  simpa using this

theorem no_dot_of_extAfter_len {base : List Char}
    (h : (extAfter base).length = base.length) :
    base.any (fun c => c == '.') = false := by
  have hall : ∀ c ∈ base.reverse, (c != '.') = true :=
    takeWhile_all_of_length (by
      have : (extAfter base).length = (base.reverse.takeWhile (fun c => c != '.')).length := by
        unfold extAfter
        rw [List.length_reverse]
      rw [← this, h, List.length_reverse])
  rw [List.any_eq_false]
  intro c hc
  have := hall c (List.mem_reverse.mpr hc)
  simpa using this

theorem has_dot_of_extAfter_len {base : List Char}
    (h : ¬ (extAfter base).length = base.length) :
    base.any (fun c => c == '.') = true := by
  by_contra hb
  have hb' : base.any (fun c => c == '.') = false := by
    cases hany : base.any (fun c => c == '.') with
    | false => rfl
    | true => exact absurd hany hb
  have hnone : ∀ c ∈ base, ¬ (c == '.') = true := List.any_eq_false.mp hb'
  apply h
  unfold extAfter
  rw [List.length_reverse]
  have heq : base.reverse.takeWhile (fun c => c != '.') = base.reverse := by
    apply List.takeWhile_eq_self_iff.mpr
    intro c hc
    have hcb : c ∈ base := List.mem_reverse.mp hc
    simpa using hnone c hcb
  rw [heq, List.length_reverse]

theorem pyStrip_dot_ext (l : List Char) (h : ∀ c ∈ l, (c == '.') = false) :
    pyStrip '.' (String.mk ('.' :: l)) = String.mk l := by
  unfold pyStrip
  apply String.ext
  show (((('.' :: l).dropWhile (· == '.')).reverse.dropWhile (· == '.')).reverse) = l
  have h1 : ('.' :: l).dropWhile (· == '.') = l.dropWhile (· == '.') := by
    rw [List.dropWhile_cons]
    simp
  have h2 : l.dropWhile (· == '.') = l := dropWhile_of_none h
  have h3 : l.reverse.dropWhile (· == '.') = l.reverse :=
    dropWhile_of_none (fun c hc => h c (List.mem_reverse.mp hc))
  rw [h1, h2, h3, List.reverse_reverse]

theorem ext_eq_specExt {f : String} (h : lastDotUsable f = true) :
    pyStrip '.' (splitext f).2 = specExt f := by
  unfold lastDotUsable extUsable at h
  unfold splitext specExt
  by_cases hlen : (extAfter (lastSeg f)).length = (lastSeg f).length
  · rw [if_pos hlen, if_neg (by simp [no_dot_of_extAfter_len hlen])]
    rfl
  · rw [if_neg hlen] at h
    rw [if_neg hlen, if_pos h, if_pos (has_dot_of_extAfter_len hlen)]
    show pyStrip '.' (String.mk ('.' :: extAfter (lastSeg f))) = _
    rw [pyStrip_dot_ext _ extAfter_no_dot]

theorem content_type_eq_resolveSpec {f : String} (h : lastDotUsable f = true) :
    content_type f = resolveSpec f := by
  show (match content_type_map.find? (fun kv => kv.1 == pyStrip '.' (splitext f).2) with
    | some kv => kv.2
    | none => "application/octet-stream") = resolveSpec f
  rw [ext_eq_specExt h]
  rfl

/-! ### More batch-loop helpers -/

theorem foldl_congr_mem {f g : List String → String → List String}
    (l : List String) (h : ∀ (t : List String), ∀ x ∈ l, f t x = g t x) :
    ∀ s : List String, l.foldl f s = l.foldl g s := by
  induction l with
  | nil => intro s; rfl
  | cons a l ih =>
    intro s
    show l.foldl f (f s a) = l.foldl g (g s a)
    rw [h s a (by simp)]
    exact ih (fun t x hx => h t x (by simp [hx])) _

theorem runUpload_fst {fs : FS} {d' : String} {l : List String}
    (hl : ∀ fn ∈ l, openOk fs fn = true) (s : List String) :
    (runBatch (Bucket.uploadStep fs okCfg d') s l).fst =
      l.foldl (fun t fn => putKey t (d' ++ "/" ++ basename fn)) s := by
  rw [runUpload_all_ok fs d' l hl s]

theorem mem_glob {fs : FS} {dirPath fn : String} :
    fn ∈ glob fs dirPath ↔
      ∃ n ∈ fs.listing, (!(isPre "." n)) = true ∧ fn = joinPath dirPath n := by
  unfold glob
  constructor
  · intro h
    rcases List.mem_map.mp h with ⟨n, hn, rfl⟩
    have hn' := List.mem_filter.mp hn
    exact ⟨n, hn'.1, hn'.2, rfl⟩
  · rintro ⟨n, hn, hnd, rfl⟩
    exact List.mem_map.mpr ⟨n, List.mem_filter.mpr ⟨hn, hnd⟩, rfl⟩

/-! ### The claims -/

/-- Claim C5 (amended): `content_type` extracts the extension with `splitext`
semantics: the substring after the last dot of the final path segment counts as
an extension only when some character of the segment strictly before that dot
is not itself a dot; when the rule applies, the result agrees with the
spec-side last-dot resolver, and the lookup is case-sensitive with fallback
`application/octet-stream` (examples: `report.csv`, `data`, `archive.CSV`). -/
theorem C5_content_type_amended :
    (∀ f : String, lastDotUsable f = true → content_type f = resolveSpec f) ∧
    content_type "report.csv" = "text/csv" ∧
    content_type "data" = "application/octet-stream" ∧
    content_type "archive.CSV" = "application/octet-stream" := by
  refine ⟨fun f h => content_type_eq_resolveSpec h, by decide, by decide, by decide⟩

/-- Claim C5, witness: the amended theorem applied to `report.csv`. -/
theorem C5_witness : content_type "report.csv" = resolveSpec "report.csv" :=
  C5_content_type_amended.1 "report.csv" (by decide)

/-- Claim C5, counterexample to the claim as stated: for the dotfile name
`.csv` the claimed last-dot rule demands `text/csv`, but `content_type`
(following `splitext`, which refuses a leading-dot-only extension) falls back
to `application/octet-stream`. -/
theorem C5_counterexample :
    content_type ".csv" = "application/octet-stream" ∧
    resolveSpec ".csv" = "text/csv" := by
  exact ⟨by decide, by decide⟩

/-- Claim C4 (amended): `chg_nonnum` returns a real (non-complex) numeric
non-NaN value that converts to float without overflow unchanged, substitutes
on NaN and on non-numeric values, but is not total over the numeric values:
on a complex value (which is a `numbers.Number`) `math.isnan` raises
`TypeError`, and on an integer too large for a double the float conversion
inside `math.isnan` raises `OverflowError`. -/
theorem C4_chg_nonnum_amended :
    (∀ v s : PyVal, isNumber v = true → isComplex v = false →
      v ≠ PyVal.floatV PyFloat.nan → floatConvOk v = true →
      chg_nonnum v s = Except.ok v) ∧
    (∀ s : PyVal, chg_nonnum (PyVal.floatV PyFloat.nan) s = Except.ok s) ∧
    (∀ v s : PyVal, isNumber v = false → chg_nonnum v s = Except.ok s) ∧
    (∀ (re im : ℚ) (s : PyVal),
      chg_nonnum (PyVal.complexV re im) s = Except.error PyErr.typeError) ∧
    (∀ (n : ℤ) (s : PyVal), intFloatOverflow n = true →
      chg_nonnum (PyVal.intV n) s = Except.error PyErr.overflowError) := by
  refine ⟨?_, fun s => rfl, ?_, fun re im s => rfl, ?_⟩
  · intro v s hnum hcplx hnan hconv
    cases v with
    | intV n =>
      have hov : intFloatOverflow n = false := by
        simpa [floatConvOk] using hconv
      simp [chg_nonnum, isNumber, mathIsnan, hov]
    | boolV b => rfl
    | floatV x =>
      cases x with
      | nan => exact absurd rfl hnan
      | fin q => rfl
    | complexV re im => simp [isComplex] at hcplx
    | strV t => simp [isNumber] at hnum
    | noneV => simp [isNumber] at hnum
  · intro v s hnum
    cases v with
    | intV n => simp [isNumber] at hnum
    | boolV b => simp [isNumber] at hnum
    | floatV x => simp [isNumber] at hnum
    | complexV re im => simp [isNumber] at hnum
    | strV t => rfl
    | noneV => rfl
  · intro n s hov
    simp [chg_nonnum, isNumber, mathIsnan, hov]

set_option maxRecDepth 40000 in
/-- Claim C4, witness: the amended theorem applied to the numeric value `3`
(within double range), the NaN float, the non-numeric string `x` and an
integer beyond double range, with substitute `0`. -/
theorem C4_witness :
    chg_nonnum (PyVal.intV 3) (PyVal.intV 0) = Except.ok (PyVal.intV 3) ∧
    chg_nonnum (PyVal.floatV PyFloat.nan) (PyVal.intV 0) = Except.ok (PyVal.intV 0) ∧
    chg_nonnum (PyVal.strV "x") (PyVal.intV 0) = Except.ok (PyVal.intV 0) ∧
    chg_nonnum (PyVal.intV (10 ^ 400)) (PyVal.intV 0) =
      Except.error PyErr.overflowError :=
  ⟨C4_chg_nonnum_amended.1 (PyVal.intV 3) (PyVal.intV 0) rfl rfl (by simp)
     (by decide),
   C4_chg_nonnum_amended.2.1 (PyVal.intV 0),
   C4_chg_nonnum_amended.2.2.1 (PyVal.strV "x") (PyVal.intV 0) rfl,
   C4_chg_nonnum_amended.2.2.2.2 (10 ^ 400) (PyVal.intV 0) (by decide)⟩

set_option maxRecDepth 40000 in
/-- Claim C4, counterexample to totality as stated: on the numeric non-NaN
complex value `i` the function does not return the value, it raises
`TypeError` from `math.isnan`; and on the numeric non-NaN integer `10 ^ 400`
the float conversion inside `math.isnan` raises `OverflowError`. -/
theorem C4_counterexample :
    chg_nonnum (PyVal.complexV 0 1) (PyVal.intV 0) = Except.error PyErr.typeError ∧
    isNumber (PyVal.complexV 0 1) = true ∧
    (Except.error PyErr.typeError : Except PyErr PyVal) ≠
      Except.ok (PyVal.complexV 0 1) ∧
    chg_nonnum (PyVal.intV (10 ^ 400)) (PyVal.intV 0) =
      Except.error PyErr.overflowError :=
  ⟨rfl, rfl, fun h => Except.noConfusion h, rfl⟩

/-- Claim C3 (amended): `upload_file` fails exactly when the local open fails
or the remote write is rejected, and it propagates the underlying error
unchanged — the OS error of `open` in the first case and the backend rejection
in the second; the code defines no uniform `TransferError` kind. -/
theorem C3_upload_file_errors (fs : FS) (cfg : RemoteCfg) (keys : List String)
    (path key : String) :
    ((Bucket.upload_file fs cfg keys path key).snd = none ↔
      (openOk fs path = true ∧ cfg.putFails key = false)) ∧
    (openOk fs path = false →
      (Bucket.upload_file fs cfg keys path key).snd = some (UErr.osError path)) ∧
    (openOk fs path = true → cfg.putFails key = true →
      (Bucket.upload_file fs cfg keys path key).snd = some (UErr.putRejected key)) := by
  unfold Bucket.upload_file
  by_cases ho : openOk fs path = true
  · by_cases hp : cfg.putFails key = true
    · simp [ho, hp]
    · simp [ho, hp]
  · have ho' : openOk fs path = false := by simpa using ho
    simp [ho']

/-- Claim C3, witness: the amended theorem applied to a missing local file. -/
theorem C3_witness :
    (Bucket.upload_file fsGood okCfg [] "missing" "k").snd =
      some (UErr.osError "missing") :=
  (C3_upload_file_errors fsGood okCfg [] "missing" "k").2.1 (by decide)

/-- Claim C3, counterexample to a single `TransferError` kind: the local-read
failure and the remote-write rejection surface as two distinct error kinds
(the propagated OS error and the propagated backend rejection), so the two
failure cases do not raise one common `TransferError`, which also does not
exist in the code. -/
theorem C3_counterexample :
    (Bucket.upload_file fsGood okCfg [] "missing" "k").snd =
      some (UErr.osError "missing") ∧
    (Bucket.upload_file fsGood cfgPutK [] "d/f.csv" "k").snd =
      some (UErr.putRejected "k") ∧
    UErr.osError "missing" ≠ UErr.putRejected "k" := by
  exact ⟨by decide, by decide, by decide⟩

/-- Claim C1 (amended): provided neither normalized prefix is a plain string
prefix of the other, `move_files` treats every object whose key starts with
the normalized source prefix as follows: an object whose slash-stripped key
equals the source prefix itself (a bare marker) is skipped and remains; every
other such object gets a copy at `destPrefix/baseName` and its original key is
gone from the bucket afterwards.  Consequently every object initially under
`src/` other than the skipped markers has an object with its basename under
`dst/`, and the only objects whose keys still start with the source prefix —
in particular the only objects under `src/` — are the skipped markers. -/
theorem C1_move_amended (keys : List String) (src dst : String)
    (h1 : isPre (stripSlashes src) (stripSlashes dst) = false)
    (h2 : isPre (stripSlashes dst) (stripSlashes src) = false) :
    (Bucket.move_files okCfg keys src dst false).snd = none ∧
    (∀ k ∈ keys, isPre (stripSlashes src) k = true →
      stripSlashes k ≠ stripSlashes src →
      (stripSlashes dst ++ "/" ++ basename k) ∈
        (Bucket.move_files okCfg keys src dst false).fst ∧
      k ∉ (Bucket.move_files okCfg keys src dst false).fst) ∧
    (∀ k ∈ (Bucket.move_files okCfg keys src dst false).fst,
      isPre (stripSlashes src) k = true →
      stripSlashes k = stripSlashes src) := by
  have hred : Bucket.move_files okCfg keys src dst false =
      runBatch (Bucket.moveStep okCfg (stripSlashes src) (stripSlashes dst)) keys
        (keys.filter (fun k => isPre (stripSlashes src) k)) := rfl
  have hnc := no_cross h1 h2
  have hl : ∀ x ∈ keys.filter (fun k => isPre (stripSlashes src) k),
      isPre (stripSlashes src) x = true :=
    fun x hx => (List.mem_filter.mp hx).2
  refine ⟨?_, ?_, ?_⟩
  · rw [hred]
    exact runMove_none _ _ _ keys
  · intro k hk hkp hks
    rw [hred]
    constructor
    · exact runMove_adds _ _ hnc _ hl keys k
        (List.mem_filter.mpr ⟨hk, hkp⟩) hks
    · exact runMove_deletes _ _ hnc _ keys k
        (List.mem_filter.mpr ⟨hk, hkp⟩) hkp hks
  · intro k hk hkp
    rw [hred] at hk
    exact runMove_clears _ _ hnc _ hl keys
      (fun y hy hyp => Or.inl (List.mem_filter.mpr ⟨hy, hyp⟩)) k hk hkp

/-- Claim C1, witness: moving `a` to `b` over a bucket holding `a/x.csv`
copies it to an object with the same basename under `b/` and deletes the
original. -/
theorem C1_witness :
    (stripSlashes "b" ++ "/" ++ basename "a/x.csv") ∈
      (Bucket.move_files okCfg ["a/x.csv"] "a" "b" false).fst ∧
    "a/x.csv" ∉ (Bucket.move_files okCfg ["a/x.csv"] "a" "b" false).fst :=
  (C1_move_amended ["a/x.csv"] "a" "b" (by decide) (by decide)).2.1
    "a/x.csv" (by decide) (by decide) (by decide)

/-- Claim C1, counterexample to the claim as stated, in two parts.  First, on
a bucket holding only the bare directory-marker object `a/`,
`move_files("a", "b")` skips it, so after the call no object with its basename
exists under `b/` and the marker object still remains under `a/` —
contradicting both final conditions of the claim for this object, which is
initially under `a/`.  Second, with overlapping prefixes the final conditions
fail even without a marker: `move_files("a", "a/b")` on a bucket holding
`a/x` copies it to `a/b/x` and deletes `a/x`, so an object still remains
under `a/` after the call — this failure is what forces the amended claim's
hypothesis that neither normalized prefix is a string prefix of the other. -/
theorem C1_counterexample :
    ((Bucket.move_files okCfg ["a/"] "a" "b" false).fst = ["a/"] ∧
     (∀ k ∈ (Bucket.move_files okCfg ["a/"] "a" "b" false).fst,
       isPre "b/" k = false) ∧
     isPre "a/" "a/" = true) ∧
    ((Bucket.move_files okCfg ["a/x"] "a" "a/b" false).fst = ["a/b/x"] ∧
     isPre "a/" "a/b/x" = true) := by
  exact ⟨⟨by decide, by decide, by decide⟩, ⟨by decide, by decide⟩⟩

/-- Claim C2 (amended): `upload_dir` iterates over every non-dot immediate
entry of the local directory, dot entries are skipped, and each processed
entry is handed to `upload_file` targeting `destPrefix/baseName`; the call
succeeds if and only if every non-dot entry can be opened as a regular
readable file — a subdirectory entry is not silently skipped, it makes
`upload_file` fail at `open` and aborts the operation — and on success the
bucket gains exactly the keys `destPrefix/name` for the non-dot entries. -/
theorem C2_upload_dir_amended (fs : FS) (keys : List String) (src dst : String)
    (hsl : ∀ n ∈ fs.listing, '/' ∉ n.data) :
    ((Bucket.upload_dir fs okCfg keys src dst false).snd = none ↔
      ∀ n ∈ fs.listing, (!(isPre "." n)) = true →
        openOk fs (joinPath src n) = true) ∧
    ((Bucket.upload_dir fs okCfg keys src dst false).snd = none →
      ∀ key : String,
        key ∈ (Bucket.upload_dir fs okCfg keys src dst false).fst ↔
          (key ∈ keys ∨ ∃ n ∈ fs.listing, (!(isPre "." n)) = true ∧
            key = stripSlashes dst ++ "/" ++ n)) := by
  have hred : Bucket.upload_dir fs okCfg keys src dst false =
      runBatch (Bucket.uploadStep fs okCfg (stripSlashes dst)) keys
        (glob fs src) := rfl
  have hiff : (∀ fn ∈ glob fs src, openOk fs fn = true) ↔
      ∀ n ∈ fs.listing, (!(isPre "." n)) = true →
        openOk fs (joinPath src n) = true := by
    constructor
    · intro h n hn hnd
      exact h (joinPath src n) (mem_glob.mpr ⟨n, hn, hnd, rfl⟩)
    · intro h fn hfn
      rcases mem_glob.mp hfn with ⟨n, hn, hnd, rfl⟩
      exact h n hn hnd
  constructor
  · rw [hred, runUpload_none_iff]
    exact hiff
  · intro hnone key
    have hglob : ∀ fn ∈ glob fs src, openOk fs fn = true := by
      rw [hred, runUpload_none_iff] at hnone
      exact hnone
    rw [hred, runUpload_fst hglob, mem_foldPut]
    constructor
    · rintro (hk | ⟨fn, hfn, rfl⟩)
      · exact Or.inl hk
      · rcases mem_glob.mp hfn with ⟨n, hn, hnd, rfl⟩
        exact Or.inr ⟨n, hn, hnd, by rw [basename_joinPath (hsl n hn)]⟩
    · rintro (hk | ⟨n, hn, hnd, rfl⟩)
      · exact Or.inl hk
      · refine Or.inr ⟨joinPath src n, mem_glob.mpr ⟨n, hn, hnd, rfl⟩, ?_⟩
        rw [basename_joinPath (hsl n hn)]

/-- Claim C2, witness: the amended theorem applied to a directory with one
ordinary file; the upload completes without error. -/
theorem C2_witness :
    (Bucket.upload_dir fsGood okCfg [] "d" "p" false).snd = none :=
  (C2_upload_dir_amended fsGood [] "d" "p" (by decide)).1.mpr (by decide)

/-- Claim C2, counterexample to the claim as stated: a directory holding one
subdirectory entry `sub` does not complete without error — `upload_file` is
invoked on the subdirectory, its `open` fails, and the operation aborts. -/
theorem C2_counterexample :
    Bucket.upload_dir fsSub okCfg [] "d" "p" false =
      ([], some (UErr.osError "d/sub")) ∧
    fsSub.kind "d/sub" = some FKind.dir := by
  exact ⟨by decide, rfl⟩

/-- Claim C6 (amended): with `clear_dest_dir=True` and a local directory whose
non-dot entries are all readable regular files, the final object set under the
normalized destination prefix is exactly `dest/name` for the non-dot entries —
dot-files of the directory are skipped by `glob`, so they are not uploaded and
do not appear, and previously existing keys under the prefix are gone. -/
theorem C6_upload_clear_amended (fs : FS) (keys : List String) (src dst : String)
    (hopen : ∀ n ∈ fs.listing, (!(isPre "." n)) = true →
      openOk fs (joinPath src n) = true)
    (hsl : ∀ n ∈ fs.listing, '/' ∉ n.data) :
    (Bucket.upload_dir fs okCfg keys src dst true).snd = none ∧
    ∀ key : String,
      (key ∈ (Bucket.upload_dir fs okCfg keys src dst true).fst ∧
        isPre (stripSlashes dst ++ "/") key = true) ↔
      ∃ n ∈ fs.listing, (!(isPre "." n)) = true ∧
        key = stripSlashes dst ++ "/" ++ n := by
  have hglob : ∀ fn ∈ glob fs src, openOk fs fn = true := by
    intro fn hfn
    rcases mem_glob.mp hfn with ⟨n, hn, hnd, rfl⟩
    exact hopen n hn hnd
  have hred : Bucket.upload_dir fs okCfg keys src dst true =
      runBatch (Bucket.uploadStep fs okCfg (stripSlashes dst))
        (delAll keys (keys.filter (fun k => isPre (stripSlashes dst) k)))
        (glob fs src) := by
    show (match Bucket.clear_dir okCfg keys dst with
      | (s, some e) => (s, some e)
      | (s, none) => runBatch (Bucket.uploadStep fs okCfg (stripSlashes dst)) s
          (glob fs src)) = _
    rw [bucketClear_ok]
  constructor
  · rw [hred, runUpload_none_iff]
    exact hglob
  · intro key
    rw [hred, runUpload_fst hglob, mem_foldPut]
    constructor
    · rintro ⟨hmem, hpre⟩
      rcases hmem with hclr | ⟨fn, hfn, rfl⟩
      · exfalso
        have hda := mem_delAll.mp hclr
        have hdp : isPre (stripSlashes dst) key = true :=
          isPre_trans (isPre_append_right (stripSlashes dst) "/") hpre
        exact hda.2 (List.mem_filter.mpr ⟨hda.1, hdp⟩)
      · rcases mem_glob.mp hfn with ⟨n, hn, hnd, rfl⟩
        exact ⟨n, hn, hnd, by rw [basename_joinPath (hsl n hn)]⟩
    · rintro ⟨n, hn, hnd, rfl⟩
      constructor
      · refine Or.inr ⟨joinPath src n, mem_glob.mpr ⟨n, hn, hnd, rfl⟩, ?_⟩
        rw [basename_joinPath (hsl n hn)]
      · exact isPre_append_right (stripSlashes dst ++ "/") n

/-- Claim C6, witness: the amended theorem applied to a directory with one
file `f.csv`; the key `p/f.csv` is present afterwards. -/
theorem C6_witness :
    (stripSlashes "p" ++ "/" ++ "f.csv") ∈
      (Bucket.upload_dir fsGood okCfg ["p/old", "q/z"] "d" "p" true).fst :=
  (((C6_upload_clear_amended fsGood ["p/old", "q/z"] "d" "p" (by decide)
    (by decide)).2 (stripSlashes "p" ++ "/" ++ "f.csv")).mpr
    ⟨"f.csv", by decide, by decide, rfl⟩).1

/-- Claim C6, counterexample to the claim as stated: a local directory holding
one regular file named `.env` uploads nothing (glob skips dot entries), so the
final object set under `p/` is empty rather than matching the basenames of the
files of the directory. -/
theorem C6_counterexample :
    Bucket.upload_dir fsDot okCfg ["p/old"] "d" "p" true = ([], none) ∧
    fsDot.kind "d/.env" = some FKind.file ∧
    ".env" ∈ fsDot.listing := by
  exact ⟨by decide, rfl, by decide⟩

/-- Claim C7: for each batch loop (`Bucket.clear_dir`, `Bucket.upload_dir`,
`Bucket.move_files`), an error raised while processing one unit of the batch
aborts the remaining iterations; the first error propagates unsuppressed, and
the state keeps the units already processed applied — no rollback and no
continue-after-error.  The conclusion exhibits the final state as exactly the
fold of the successful units (plus, for `move_files`, the partial effect of
the failing unit itself). -/
theorem C7_batch_first_error_aborts :
    (∀ (cfg : RemoteCfg) (keys : List String) (d : String)
        (l1 : List String) (k : String) (l2 : List String),
      keys.filter (fun x => isPre (stripSlashes d) x) = l1 ++ k :: l2 →
      (∀ x ∈ l1, cfg.delFails x = false) → cfg.delFails k = true →
      Bucket.clear_dir cfg keys d =
        (delAll keys l1, some (UErr.delFailed k))) ∧
    (∀ (fs : FS) (cfg : RemoteCfg) (keys : List String) (src dst : String)
        (l1 : List String) (fn : String) (l2 : List String),
      glob fs src = l1 ++ fn :: l2 →
      (∀ x ∈ l1, openOk fs x = true ∧
        cfg.putFails (stripSlashes dst ++ "/" ++ basename x) = false) →
      openOk fs fn = false →
      Bucket.upload_dir fs cfg keys src dst false =
        (l1.foldl (fun t x => putKey t (stripSlashes dst ++ "/" ++ basename x)) keys,
         some (UErr.osError fn))) ∧
    (∀ (cfg : RemoteCfg) (keys : List String) (src dst : String)
        (l1 : List String) (k : String) (l2 : List String),
      keys.filter (fun x => isPre (stripSlashes src) x) = l1 ++ k :: l2 →
      (∀ x ∈ l1, Bucket.moveOk cfg (stripSlashes src) (stripSlashes dst) x = true) →
      Bucket.moveOk cfg (stripSlashes src) (stripSlashes dst) k = false →
      Bucket.move_files cfg keys src dst false =
        Bucket.moveStep cfg (stripSlashes src) (stripSlashes dst)
          (l1.foldl (fun t x =>
            (Bucket.moveStep cfg (stripSlashes src) (stripSlashes dst) t x).fst)
            keys) k ∧
      (Bucket.move_files cfg keys src dst false).snd ≠ none) := by
  refine ⟨?_, ?_, ?_⟩
  · intro cfg keys d l1 k l2 hfil hok hk
    have hred : Bucket.clear_dir cfg keys d =
        runBatch (Bucket.clearStep cfg) keys
          (keys.filter (fun x => isPre (stripSlashes d) x)) := rfl
    have hfold : l1.foldl (fun t x => (Bucket.clearStep cfg t x).fst) keys =
        delAll keys l1 :=
      foldl_congr_mem l1 (fun t x hx => by simp [Bucket.clearStep, hok x hx]) keys
    rw [hred, hfil,
      runBatch_abort (Bucket.clearStep cfg) l1 k l2 keys
        (fun x hx t => by simp [Bucket.clearStep, hok x hx])
        (fun t => by simp [Bucket.clearStep, hk]),
      hfold]
    simp [Bucket.clearStep, hk]
  · intro fs cfg keys src dst l1 fn l2 hfil hok hfn
    have hred : Bucket.upload_dir fs cfg keys src dst false =
        runBatch (Bucket.uploadStep fs cfg (stripSlashes dst)) keys
          (glob fs src) := rfl
    have hfold : l1.foldl
        (fun t x => (Bucket.uploadStep fs cfg (stripSlashes dst) t x).fst) keys =
        l1.foldl (fun t x => putKey t (stripSlashes dst ++ "/" ++ basename x)) keys :=
      foldl_congr_mem l1
        (fun t x hx => by rw [uploadStep_ok (hok x hx).1 (hok x hx).2]) keys
    rw [hred, hfil,
      runBatch_abort (Bucket.uploadStep fs cfg (stripSlashes dst)) l1 fn l2 keys
        (fun x hx t => by rw [uploadStep_ok (hok x hx).1 (hok x hx).2])
        (fun t => by simp [Bucket.uploadStep, Bucket.upload_file, hfn]),
      hfold]
    simp [Bucket.uploadStep, Bucket.upload_file, hfn]
  · intro cfg keys src dst l1 k l2 hfil hok hk
    have hred : Bucket.move_files cfg keys src dst false =
        runBatch (Bucket.moveStep cfg (stripSlashes src) (stripSlashes dst)) keys
          (keys.filter (fun x => isPre (stripSlashes src) x)) := rfl
    have heq : Bucket.move_files cfg keys src dst false =
        Bucket.moveStep cfg (stripSlashes src) (stripSlashes dst)
          (l1.foldl (fun t x =>
            (Bucket.moveStep cfg (stripSlashes src) (stripSlashes dst) t x).fst)
            keys) k := by
      rw [hred, hfil]
      exact runBatch_abort _ l1 k l2 keys
        (fun x hx t => (moveStep_none_iff cfg _ _ t x).mpr (hok x hx))
        (fun t hnone => by
          rw [moveStep_none_iff cfg _ _ t k, hk] at hnone
          exact absurd hnone (by decide))
    refine ⟨heq, ?_⟩
    rw [heq]
    intro hnone
    rw [moveStep_none_iff cfg _ _ _ k, hk] at hnone
    exact absurd hnone (by decide)

/-- Claim C7, witness: the three parts applied to concrete aborted runs — a
delete that fails on the second key, an upload that hits a subdirectory after
one successful file, and a move whose second copy is rejected. -/
theorem C7_witness :
    Bucket.clear_dir cfgDelPB ["p/a", "p/b", "p/c"] "p" =
      (["p/b", "p/c"], some (UErr.delFailed "p/b")) ∧
    Bucket.upload_dir fsHalf okCfg [] "d" "p" false =
      (["p/a.txt"], some (UErr.osError "d/sub")) ∧
    Bucket.move_files cfgCopyAY ["a/x", "a/y", "a/z"] "a" "b" false =
      (["a/y", "a/z", "b/x"], some (UErr.copyFailed "a/y" "b/y")) := by
  refine ⟨?_, ?_, ?_⟩
  · have h := C7_batch_first_error_aborts.1 cfgDelPB ["p/a", "p/b", "p/c"] "p"
      ["p/a"] "p/b" ["p/c"] (by decide) (by decide) (by decide)
    exact h.trans (by decide)
  · have h := C7_batch_first_error_aborts.2.1 fsHalf okCfg [] "d" "p"
      ["d/a.txt"] "d/sub" [] (by decide) (by decide) (by decide)
    exact h.trans (by decide)
  · have h := (C7_batch_first_error_aborts.2.2 cfgCopyAY ["a/x", "a/y", "a/z"]
      "a" "b" ["a/x"] "a/y" ["a/z"] (by decide) (by decide) (by decide)).1
    exact h.trans (by decide)

/-! ### Local directory cleanup -/

theorem clear_dir_local_mem (fs : FS) (dirPath : String) (G : List String)
    (acc : List String) (m : String) :
    m ∈ G.foldl (fun names fn =>
        if fs.kind fn == some FKind.file then
          names.filter (fun n => joinPath dirPath n != fn)
        else names) acc ↔
      m ∈ acc ∧ ∀ fn ∈ G, fs.kind fn = some FKind.file →
        joinPath dirPath m ≠ fn := by
  induction G generalizing acc with
  | nil => simp
  | cons a G ih =>
    show m ∈ G.foldl _
        (if fs.kind a == some FKind.file then
          acc.filter (fun n => joinPath dirPath n != a) else acc) ↔ _
    by_cases ha : fs.kind a = some FKind.file
    · rw [if_pos (by simp [ha]), ih]
      rw [List.mem_filter]
      constructor
      · rintro ⟨⟨hm, hne⟩, hrest⟩
        refine ⟨hm, fun fn hfn hkind => ?_⟩
        rcases List.mem_cons.mp hfn with rfl | hfn
        · simpa using hne
        · exact hrest fn hfn hkind
      · rintro ⟨hm, hall⟩
        refine ⟨⟨hm, by simpa using hall a (by simp) ha⟩,
          fun fn hfn hkind => hall fn (by simp [hfn]) hkind⟩
    · rw [if_neg (by simp [ha]), ih]
      constructor
      · rintro ⟨hm, hrest⟩
        refine ⟨hm, fun fn hfn hkind => ?_⟩
        rcases List.mem_cons.mp hfn with rfl | hfn
        · exact absurd hkind ha
        · exact hrest fn hfn hkind
      · rintro ⟨hm, hall⟩
        exact ⟨hm, fun fn hfn hkind => hall fn (by simp [hfn]) hkind⟩

/-- Claim C8: the module-level `clear_dir` never deletes a directory entry or
an entry whose name starts with a dot; every directory and dot entry among the
original immediate entries is still listed afterwards, and every non-dot
regular file among them is gone. -/
theorem C8_local_clear (fs : FS) (dirPath : String)
    (hsl : ∀ n ∈ fs.listing, isPre "/" n = false) :
    ∀ n ∈ fs.listing,
      ((isPre "." n = true ∨ fs.kind (joinPath dirPath n) ≠ some FKind.file) →
        n ∈ clear_dir fs dirPath) ∧
      ((isPre "." n = false ∧ fs.kind (joinPath dirPath n) = some FKind.file) →
        n ∉ clear_dir fs dirPath) := by
  intro n hn
  unfold clear_dir
  rw [clear_dir_local_mem]
  constructor
  · intro hcase
    refine ⟨hn, fun fn hfn hkind heq => ?_⟩
    rcases mem_glob.mp hfn with ⟨n', hn', hnd', rfl⟩
    have hnn : n = n' := joinPath_inj (hsl n hn) (hsl n' hn') heq
    rcases hcase with hdot | hnf
    · rw [← hnn] at hnd'
      rw [hdot] at hnd'
      exact absurd hnd' (by decide)
    · rw [← hnn] at hkind
      exact hnf hkind
  · rintro ⟨hdot, hfile⟩ ⟨_, hall⟩
    exact hall (joinPath dirPath n)
      (mem_glob.mpr ⟨n, hn, by simp [hdot], rfl⟩) hfile rfl

/-- Claim C8, witness: on a directory with `a.txt`, a subdirectory `b` and
`.gitignore`, clearing keeps `b` and `.gitignore` and removes `a.txt`. -/
theorem C8_witness :
    ".gitignore" ∈ clear_dir fsMix "d" ∧
    "b" ∈ clear_dir fsMix "d" ∧
    "a.txt" ∉ clear_dir fsMix "d" := by
  refine ⟨?_, ?_, ?_⟩
  · exact (C8_local_clear fsMix "d" (by decide) ".gitignore" (by decide)).1
      (Or.inl (by decide))
  · exact (C8_local_clear fsMix "d" (by decide) "b" (by decide)).1
      (Or.inr (by decide))
  · exact (C8_local_clear fsMix "d" (by decide) "a.txt" (by decide)).2
      ⟨by decide, by decide⟩

/-- Claim C9: a prefix that is empty or consists only of slashes normalizes to
the empty string, which starts every key, so `Bucket.clear_dir` deletes every
object in the bucket. -/
theorem C9_clear_empty (keys : List String) (p : String)
    (hp : ∀ c ∈ p.data, c = '/') :
    Bucket.clear_dir okCfg keys p = ([], none) := by
  rw [bucketClear_ok, stripSlashes_all hp]
  have hf : keys.filter (fun k => isPre "" k) = keys :=
    List.filter_eq_self.mpr (fun a _ => isPre_nil a)
  rw [hf]
  have hnil : delAll keys keys = [] := by
    apply List.eq_nil_iff_forall_not_mem.mpr
    intro x hx
    have hm := mem_delAll.mp hx
    exact hm.2 hm.1
  rw [hnil]

/-- Claim C9, witness: clearing the prefix consisting of one slash deletes the
whole bucket. -/
theorem C9_witness :
    Bucket.clear_dir okCfg ["a", "b/c"] "/" = ([], none) :=
  C9_clear_empty ["a", "b/c"] "/" (by decide)

/-- Claim C10: prefix selection is plain string-prefix matching on keys with
no path-separator awareness: any key that starts with the normalized prefix as
a character sequence is deleted by `Bucket.clear_dir`, and `move_files "foo"`
moves `foobar/x.csv` along with `foo/y.txt`. -/
theorem C10_plain_string_match :
    (∀ (keys : List String) (p k : String), k ∈ keys →
      isPre (stripSlashes p) k = true →
      k ∉ (Bucket.clear_dir okCfg keys p).fst) ∧
    Bucket.move_files okCfg ["foobar/x.csv", "foo/y.txt"] "foo" "dest" false =
      (["dest/x.csv", "dest/y.txt"], none) := by
  constructor
  · intro keys p k hk hpre hmem
    have hm := mem_bucketClear_ok.mp hmem
    rw [hpre] at hm
    exact absurd hm.2 (by decide)
  · decide

/-- Claim C10, witness: the general part applied to the key `foobar/x.csv`
and the prefix `foo`. -/
theorem C10_witness :
    "foobar/x.csv" ∉ (Bucket.clear_dir okCfg ["foobar/x.csv"] "foo").fst :=
  C10_plain_string_match.1 ["foobar/x.csv"] "foo" "foobar/x.csv"
    (by decide) (by decide)

end AkAdmin
